import Mathlib

/-!
Verification of the avito-webhook-hb server (`server.js` and its near-duplicate
variant): a file-record-backed work queue with mutually exclusive claiming via
atomic rename, heartbeat-based lease extension, stale-lease reclamation
(claim-time sweep and periodic reaper), log-scan-confirmed safe completion,
and webhook ingestion with per-(account, chat) deduplication.

The storage directory is modelled as a list of named records carrying their
content and modification time (ms).  String operations of the source
(`endsWith`, `startsWith`, `includes`, per-character `replace`, `trim`) are
modelled over the character list underlying a `String`.
-/

namespace AvitoHB

/-! ## String operations used by the source -/

/-- JS `s.endsWith(suf)`. -/
def strEndsWith (s suf : String) : Bool := suf.data.isSuffixOf s.data

/-- JS `s.startsWith(pre)`. -/
def strStartsWith (s pre : String) : Bool := pre.data.isPrefixOf s.data

/-- Substring occurrence on character lists (JS `String.prototype.includes`). -/
def hasSub (sub : List Char) : List Char → Bool
  | [] => sub.isPrefixOf []
  | c :: cs => sub.isPrefixOf (c :: cs) || hasSub sub cs

/-- JS `s.includes(sub)`. -/
def strIncludes (s sub : String) : Bool := hasSub sub.data s.data

def isTrimWs (c : Char) : Bool :=
  c = ' ' || c = '\t' || c = '\n' || c = '\r' || c = '\x0b' || c = '\x0c'

/-- JS `s.trim()`: strip whitespace from both ends. -/
def strTrim (s : String) : String :=
  ⟨((s.data.dropWhile isTrimWs).reverse.dropWhile isTrimWs).reverse⟩

/-! ## Data model

`Task` mirrors the persisted JSON record
`{ id, account, chat_id, reply_text, message_id, created_at }` (server.js:75).
A `FsEntry` is one file of the task directory: its basename, parsed content
and mtime in milliseconds. -/

structure Task where
  id : String
  account : String
  chat_id : String
  reply_text : String
  message_id : Option String
  created_at : String
deriving Repr, DecidableEq

structure FsEntry where
  name : String
  task : Task
  mtime : Int
deriving Repr, DecidableEq

abbrev Store := List FsEntry

def names (s : Store) : List String := s.map (·.name)

def lookupEntry (s : Store) (n : String) : Option FsEntry :=
  s.find? (fun e => e.name == n)

/-- Rename a record: every entry called `src` gets the new basename `dst`
(content and mtime are preserved, as POSIX rename preserves them). -/
def applyRename (s : Store) (src dst : String) : Store :=
  s.map (fun e => if e.name = src then { e with name := dst } else e)

/-- The atomic rename primitive (`fsp.rename`): succeeds iff the source
exists, in which case the store is updated; otherwise it throws (`none`). -/
def atomicRename (s : Store) (src dst : String) : Option Store :=
  if (names s).contains src then some (applyRename s src dst) else none

/-- Configuration drawn from the environment (server.js:17-31). -/
structure Config where
  defaultReply : String
  onlyFirstSystem : Bool
  webhookSecret : String
  taskKey : String
  visibilityTimeoutMs : Int
  heartbeatGraceMs : Int
deriving Repr, DecidableEq

/-! ## createTask (server.js:76-92) -/

/-- Characters kept by the sanitizing regex `[^a-zA-Z0-9_-]` replacement. -/
def isAccountChar (c : Char) : Bool :=
  ('a' ≤ c && c ≤ 'z') || ('A' ≤ c && c ≤ 'Z') || ('0' ≤ c && c ≤ '9') || c = '_' || c = '-'

def sanitizeChar (c : Char) : Char := if isAccountChar c then c else '_'

/-- `(account || 'hr-main').replace(/[^a-zA-Z0-9_-]/g, '_')`. -/
def sanitizeAccount (account : String) : String :=
  ⟨((if account = "" then "hr-main" else account).data).map sanitizeChar⟩

inductive CreateError
  | chatIdRequired
deriving Repr, DecidableEq

/-- `createTask` (server.js:76-92).  The fresh random id and the two clocks
are passed in explicitly.  On success it writes the Available record
`{acc}__{id}.json` into the store. -/
def createTask (cfg : Config) (id nowIsoStr : String)
    (account chat_id : String) (reply_text message_id : Option String)
    (nowMs : Int) (s : Store) : Except CreateError (Task × Store) :=
  if chat_id = "" then .error .chatIdRequired
  else
    let acc := sanitizeAccount account
    let task : Task :=
      { id := id
        account := acc
        chat_id := chat_id
        reply_text := match reply_text with
          | some r => if r = "" then cfg.defaultReply else r
          | none => cfg.defaultReply
        message_id := match message_id with
          | some m => if m = "" then none else some m
          | none => none
        created_at := nowIsoStr }
    let file := acc ++ "__" ++ id ++ ".json"
    .ok (task, s ++ [⟨file, task, nowMs⟩])

/-! ## claimTask (server.js:94-143) -/

/-- `full.replace(/\.json$/, '.json.taking')`: the Leased name of an
Available record. -/
def takingName (f : String) : String :=
  if strEndsWith f ".json" then
    ⟨f.data.take (f.data.length - ".json".data.length) ++ ".json.taking".data⟩
  else f

/-- `full.replace(/\.json\.taking$/, '.json')`: the Available name of a
Leased record. -/
def backName (n : String) : String :=
  if strEndsWith n ".json.taking" then
    ⟨n.data.take (n.data.length - ".json.taking".data.length) ++ ".json".data⟩
  else n

/-- Descending-mtime comparison used by `files.sort((a, b) => tb - ta)`. -/
def mtimeGe (a b : FsEntry) : Prop := b.mtime ≤ a.mtime

instance : DecidableRel mtimeGe := fun a b => inferInstanceAs (Decidable (b.mtime ≤ a.mtime))

instance : IsTotal FsEntry mtimeGe := ⟨fun a b => (le_total b.mtime a.mtime)⟩

instance : IsTrans FsEntry mtimeGe := ⟨fun _ _ _ h1 h2 => le_trans h2 h1⟩

/-- Stable descending sort by mtime (V8's `Array.prototype.sort` is stable). -/
def sortByMtimeDesc (l : List FsEntry) : List FsEntry := List.insertionSort mtimeGe l

/-- Candidate selection of `claimTask`: list `.json` records, sort newest
first, filter by `{account}__` when an account is given, keep the first `k`
(server.js:96-112; `k = 3` in server.js, `k = 7` in the variant). -/
def claimCandidates (k : Nat) (account : String) (s : Store) : List FsEntry :=
  let files := s.filter (fun e => strEndsWith e.name ".json")
  let sorted := sortByMtimeDesc files
  let filtered :=
    if account = "" then sorted
    else sorted.filter (fun e => strStartsWith e.name (account ++ "__"))
  filtered.take k

structure ClaimResult where
  task : Task
  lockId : String
deriving Repr, DecidableEq

/-- The claim loop (server.js:114-125).  `renameOk f` models whether the
atomic rename of candidate `f` succeeds or is lost to a concurrent
claimant (in which case the candidate is skipped). -/
def claimLoop (renameOk : String → Bool) (s : Store) : List FsEntry → Option (ClaimResult × Store)
  | [] => none
  | e :: rest =>
    if renameOk e.name then
      some ({ task := e.task, lockId := takingName e.name }, applyRename s e.name (takingName e.name))
    else claimLoop renameOk s rest

/-- Lease-staleness test `age > VISIBILITY_TIMEOUT_MS + HEARTBEAT_GRACE_MS`
(server.js:135, server.js:408). -/
def staleP (cfg : Config) (now : Int) (e : FsEntry) : Bool :=
  now - e.mtime > cfg.visibilityTimeoutMs + cfg.heartbeatGraceMs

/-- Account filter of the claim-time sweep: a lock is skipped iff an account
is given and the lock name lacks the `{account}__` prefix (server.js:131). -/
def sweepMatch (account n : String) : Bool :=
  account = "" || strStartsWith n (account ++ "__")

/-- One iteration of the stale-lock loop body (server.js:130-140): if the
lock passes the account filter and its age exceeds the threshold, it is
renamed back to its `.json` form. -/
def requeueStep (cfg : Config) (account : String) (now : Int) (acc : Store) (e : FsEntry) : Store :=
  if sweepMatch account e.name && staleP cfg now e then applyRename acc e.name (backName e.name)
  else acc

/-- Stale-lock reclamation: list `.json.taking` records, revert the stale
ones.  With the claim's account it is the claim-time sweep
(server.js:128-140); with no account it is one reaper tick
(server.js:398-415). -/
def requeueStale (cfg : Config) (account : String) (now : Int) (s : Store) : Store :=
  (s.filter (fun e => strEndsWith e.name ".json.taking")).foldl (requeueStep cfg account now) s

def sweepLocks (cfg : Config) (account : String) (now : Int) (s : Store) : Store :=
  requeueStale cfg account now s

/-- One tick of the background reaper (server.js:398-415): same loop as the
claim-time sweep, with no account filter. -/
def reaperTick (cfg : Config) (now : Int) (s : Store) : Store :=
  requeueStale cfg "" now s

/-- `claimTask` (server.js:94-143): try the candidates in order; if none is
won, sweep the stale locks of this account and return empty. -/
def claimTask (cfg : Config) (k : Nat) (renameOk : String → Bool) (account : String)
    (now : Int) (s : Store) : Option ClaimResult × Store :=
  match claimLoop renameOk s (claimCandidates k account s) with
  | some (r, s') => (some r, s')
  | none => (none, sweepLocks cfg account now s)

/-! ## doneTask / requeueTask / readTaking (server.js:145-160) -/

/-- `doneTask` (server.js:145-148): unlink the lock file, swallowing any
error, and report success unconditionally. -/
def doneTask (s : Store) (lockId : String) : Bool × Store :=
  (true, s.filter (fun e => ¬(e.name = lockId)))

/-- `requeueTask` (server.js:150-155): rename the lock back to its `.json`
form, swallowing failure (a missing source leaves the store unchanged). -/
def requeueTask (s : Store) (lockId : String) : Store :=
  if (names s).contains lockId then applyRename s lockId (backName lockId) else s

/-- `readTaking` (server.js:157-160): parse the lock file; `none` models the
thrown error when it does not exist. -/
def readTaking (s : Store) (lockId : String) : Option Task :=
  (lookupEntry s lockId).map (·.task)

/-! ## Log-scan confirmation (server.js:380-387, /logs/has)

The scan lowercases pattern and subject (the regex carries the `i` flag;
folding is modelled for ASCII and the Cyrillic range used by the source) and
looks for `"chat_id"\s*:\s*"CHAT"`, then within a lazy gap of at most 800
characters `"type"\s*:\s*"text"`, then within at most 400 characters
`"author_id"\s*:\s*(\d+)`, returning the captured number of the leftmost,
lazily-minimal match, exactly as `RegExp.prototype.exec` does. -/

structure LogTail where
  name : String
  text : String
deriving Repr, DecidableEq

def isWsChar (c : Char) : Bool :=
  c = ' ' || c = '\t' || c = '\n' || c = '\r' || c = '\x0b' || c = '\x0c'

def lcChar (c : Char) : Char :=
  if 'A' ≤ c && c ≤ 'Z' then Char.ofNat (c.toNat + 32)
  else if 'А' ≤ c && c ≤ 'Я' then Char.ofNat (c.toNat + 32)
  else if c = 'Ё' then 'ё'
  else c

/-- Match a literal at the head of the input, returning the remainder. -/
def eatLit : List Char → List Char → Option (List Char)
  | [], rest => some rest
  | _ :: _, [] => none
  | p :: ps, c :: cs => if c = p then eatLit ps cs else none

/-- Greedy `\d+` returning its numeric value (the capture `m[1]`). -/
def eatDigits (acc : Nat) : List Char → Option Nat
  | c :: cs =>
    if '0' ≤ c && c ≤ '9' then
      match eatDigits (acc * 10 + (c.toNat - '0'.toNat)) cs with
      | some v => some v
      | none => some (acc * 10 + (c.toNat - '0'.toNat))
    else none
  | [] => none

/-- Lazy bounded gap `[\s\S]{0,budget}?` followed by `k`: try the shortest
gap first, backtracking outward. -/
def findWithin (k : List Char → Option Nat) : Nat → List Char → Option Nat
  | budget, cs =>
    match k cs with
    | some v => some v
    | none =>
      match budget, cs with
      | 0, _ => none
      | _, [] => none
      | b + 1, _ :: cs' => findWithin k b cs'

/-- Tail of the pattern: `"author_id"\s*:\s*(\d+)`. -/
def matchAuthor (cs : List Char) : Option Nat :=
  match eatLit "\"author_id\"".data cs with
  | none => none
  | some r1 =>
    match r1.dropWhile isWsChar with
    | ':' :: r2 => eatDigits 0 (r2.dropWhile isWsChar)
    | _ => none

/-- Middle of the pattern: `"type"\s*:\s*"text"` then the 400-bounded gap. -/
def matchTypeText (cs : List Char) : Option Nat :=
  match eatLit "\"type\"".data cs with
  | none => none
  | some r1 =>
    match r1.dropWhile isWsChar with
    | ':' :: r2 =>
      match eatLit "\"text\"".data (r2.dropWhile isWsChar) with
      | none => none
      | some r3 => findWithin matchAuthor 400 r3
    | _ => none

/-- Head of the pattern: `"chat_id"\s*:\s*"CHAT"` then the 800-bounded gap. -/
def matchFrom (chat : List Char) (cs : List Char) : Option Nat :=
  match eatLit "\"chat_id\"".data cs with
  | none => none
  | some r1 =>
    match r1.dropWhile isWsChar with
    | ':' :: r2 =>
      match eatLit ('"' :: chat ++ ['"']) (r2.dropWhile isWsChar) with
      | none => none
      | some r3 => findWithin matchTypeText 800 r3
    | _ => none

/-- Leftmost match: try each start position left to right. -/
def scanText (chat : List Char) : List Char → Option Nat
  | [] => matchFrom chat []
  | c :: cs =>
    match matchFrom chat (c :: cs) with
    | some v => some v
    | none => scanText chat cs

/-- One tail confirms `chat` iff it contains the literal
`"chat_id": "CHAT"` and the regex's first match captures a positive
author id (server.js:383-386). -/
def tailConfirms (chat : String) (text : String) : Bool :=
  strIncludes text ("\"chat_id\": \"" ++ chat ++ "\"") &&
    (match scanText (chat.data.map lcChar) (text.data.map lcChar) with
     | some a => decide (a > 0)
     | none => false)

/-- The confirmation loop over the scanned log tails (server.js:381-387). -/
def confirmedInTails (chat : String) (tails : List LogTail) : Bool :=
  tails.any (fun t => tailConfirms chat t.text)

/-! ## Key check and the lock-token endpoints (server.js:312-395) -/

/-- `checkKey` (server.js:312-316). -/
def checkKey (cfg : Config) (keyRaw : String) : Bool :=
  !(cfg.taskKey = "" || ¬(strTrim keyRaw = cfg.taskKey))

/-- Shared lock-token validation `!lock || !lock.endsWith('.json.taking')`
applied to the trimmed parameter. -/
def lockShapeOk (lock : String) : Bool :=
  !(lock = "" || !strEndsWith lock ".json.taking")

/-- `POST /tasks/done` (server.js:334-340): status and resulting store. -/
def doneEp (cfg : Config) (keyRaw lockRaw : String) (s : Store) : Nat × Store :=
  if !checkKey cfg keyRaw then (403, s)
  else
    let lock := strTrim lockRaw
    if !lockShapeOk lock then (400, s)
    else (200, (doneTask s lock).2)

/-- `POST /tasks/requeue` (server.js:342-348). -/
def requeueEp (cfg : Config) (keyRaw lockRaw : String) (s : Store) : Nat × Store :=
  if !checkKey cfg keyRaw then (403, s)
  else
    let lock := strTrim lockRaw
    if !lockShapeOk lock then (400, s)
    else (200, requeueTask s lock)

/-- `POST /tasks/heartbeat` (server.js:351-364): touch the lock file's
mtime; 404 when `utimes` throws because the file is missing. -/
def heartbeatEp (cfg : Config) (keyRaw lockRaw : String) (now : Int) (s : Store) : Nat × Store :=
  if !checkKey cfg keyRaw then (403, s)
  else
    let lock := strTrim lockRaw
    if !lockShapeOk lock then (400, s)
    else if (names s).contains lock then
      (200, s.map (fun e => if e.name = lock then { e with mtime := now } else e))
    else (404, s)

structure DoneSafeRes where
  status : Nat
  files : Option (List String)
  store : Store
deriving Repr, DecidableEq

/-- `POST /tasks/doneSafe` (server.js:367-395): recover `chat_id` from the
lock record (empty on a read failure), 428 when absent; 428 with the list of
scanned tails when the log scan does not confirm; otherwise delete the lock
and answer 204. -/
def doneSafeEp (cfg : Config) (keyRaw lockRaw : String) (tails : List LogTail)
    (s : Store) : DoneSafeRes :=
  if !checkKey cfg keyRaw then ⟨403, none, s⟩
  else
    let lock := strTrim lockRaw
    if !lockShapeOk lock then ⟨400, none, s⟩
    else
      let chat := match readTaking s lock with
        | some t => strTrim t.chat_id
        | none => ""
      if chat = "" then ⟨428, none, s⟩
      else if confirmedInTails chat tails then ⟨204, none, (doneTask s lock).2⟩
      else ⟨428, some (tails.map (·.name)), s⟩

/-! ## Webhook ingestion (server.js:200-261, variant part_000:200-272) -/

/-- Soft secret check of `POST /webhook/:account` (server.js:224-231):
when a secret is configured, the request passes iff the supplied secret
equals it or any non-empty signature header is present. -/
def webhookSecretPass (secret hSecret hSignature : String) : Bool :=
  (!(hSecret = "") && hSecret = secret) || (!(hSignature = "") && decide (0 < hSignature.length))

/-- Whether the webhook request is rejected with 403 (server.js:224-231). -/
def webhookRejected (secret hSecret hSignature : String) : Bool :=
  !(secret = "") && !(webhookSecretPass secret hSecret hSignature)

/-- Literal `кандидат` of the trigger regex, lowercased. -/
def kandidatLit : List Char := "кандидат".data

/-- Literal `откликнулся` of the trigger regex, lowercased. -/
def otklLit : List Char := "откликнулся".data

/-- Scan forward for a literal without crossing a line terminator (the gap
`.*` of the regex does not match newlines). -/
def matchOnLine (pat : List Char) : List Char → Bool
  | [] => (eatLit pat []).isSome
  | c :: cs =>
    if (eatLit pat (c :: cs)).isSome then true
    else if c = '\n' || c = '\r' then false
    else matchOnLine pat cs

/-- Matcher for `/кандидат.*откликнулся/i` on lowercased text
(part_000:205-207): some occurrence of the first literal followed on the
same line by the second. -/
def scanCandidate : List Char → Bool
  | [] => false
  | c :: cs =>
    match eatLit kandidatLit (c :: cs) with
    | some rest => matchOnLine otklLit rest || scanCandidate cs
    | none => scanCandidate cs

/-- `looksLikeCandidateText` of the part_000 variant. -/
def looksLikeCandidateText (txt : String) : Bool :=
  scanCandidate (txt.data.map lcChar)

/-- The inbound event envelope `payload.value`: `type`, `content.text`,
`content.flow_id`, `chat_id`, `id`.  Absent strings are modelled as `""`
(they are read through `String(x || '')` or used for truthiness). -/
structure WebhookVal where
  type : String
  text : String
  flow_id : String
  chat_id : String
  msg_id : Option String
deriving Repr, DecidableEq

def isJobFlow (v : WebhookVal) : Bool := v.type = "system" && v.flow_id = "job"

/-- The task-creation step of the webhook handler (part_000:236-268):
returns the new dedup set, the new store, and whether a Task was created.
`flow_id:"job"` system events always enqueue; otherwise, with
`ONLY_FIRST_SYSTEM`, the `{account}:{chatId}` key suppresses repeats. -/
def webhookBody (cfg : Config) (account : String) (v : WebhookVal) (seen : List String)
    (id nowIsoStr : String) (nowMs : Int) (s : Store) : List String × Store × Bool :=
  let isCandidateText := looksLikeCandidateText v.text
  if !(v.chat_id = "") && (isJobFlow v || isCandidateText) then
    let key := account ++ ":" ++ v.chat_id
    let allowedSeen : Bool × List String :=
      if !(isJobFlow v) && cfg.onlyFirstSystem then
        if seen.contains key then (false, seen) else (true, key :: seen)
      else (true, seen)
    if allowedSeen.1 then
      match createTask cfg id nowIsoStr account v.chat_id (some cfg.defaultReply) v.msg_id nowMs s with
      | .ok (_, s') => (allowedSeen.2, s', true)
      | .error _ => (allowedSeen.2, s, false)
    else (allowedSeen.2, s, false)
  else (seen, s, false)

/-! ## Concurrency model of claiming

Cross-process coordination happens only through the atomic rename of an
Available record `f` to its Leased name (server.js:118).  A run interleaves
such attempts by any number of claimers; each step either wins the rename or
observes its failure. -/

structure ClaimEvent where
  claimer : Nat
  target : String
  success : Bool
deriving Repr, DecidableEq

inductive ClaimRun : Store → List ClaimEvent → Store → Prop
  | nil (s : Store) : ClaimRun s [] s
  | stepSuccess {s s' t : Store} {evs : List ClaimEvent} (c : Nat) (f : String) :
      atomicRename s f (takingName f) = some s' →
      ClaimRun s' evs t → ClaimRun s (⟨c, f, true⟩ :: evs) t
  | stepFail {s t : Store} {evs : List ClaimEvent} (c : Nat) (f : String) :
      atomicRename s f (takingName f) = none →
      ClaimRun s evs t → ClaimRun s (⟨c, f, false⟩ :: evs) t

/-- How many claimers were handed the Task of Available record `f`. -/
def successCount (f : String) (evs : List ClaimEvent) : Nat :=
  (evs.filter (fun e => e.target == f && e.success)).length

/-! ## Basic facts about names and suffixes -/

theorem strEndsWith_iff {s suf : String} : strEndsWith s suf = true ↔ suf.data <:+ s.data := by
  simp [strEndsWith]

theorem strStartsWith_iff {s pre : String} : strStartsWith s pre = true ↔ pre.data <+: s.data := by
  simp [strStartsWith]

/-- No name ends both in `.json` and in `.taking`. -/
theorem not_endsJson_endsTaking {n : String}
    (h1 : strEndsWith n ".json" = true) (h2 : strEndsWith n ".taking" = true) : False := by
  rcases strEndsWith_iff.mp h1 with ⟨t1, ht1⟩
  rcases strEndsWith_iff.mp h2 with ⟨t2, ht2⟩
  have e1 : n.data.getLast? = some 'n' := by
    rw [← ht1, List.getLast?_append]; rfl
  have e2 : n.data.getLast? = some 'g' := by
    rw [← ht2, List.getLast?_append]; rfl
  rw [e1] at e2
  simp at e2

theorem endsTaking_of_endsJsonTaking {n : String}
    (h : strEndsWith n ".json.taking" = true) : strEndsWith n ".taking" = true := by
  have s1 : ".json.taking".data <:+ n.data := strEndsWith_iff.mp h
  have s0 : ".taking".data <:+ ".json.taking".data := by decide
  exact strEndsWith_iff.mpr (s0.trans s1)

/-- Decomposition of a name ending in `.json`. -/
theorem exists_stem_of_endsJson {f : String} (h : strEndsWith f ".json" = true) :
    ∃ u, f.data = u ++ ".json".data := by
  rcases strEndsWith_iff.mp h with ⟨u, hu⟩
  exact ⟨u, hu.symm⟩

theorem takingName_data {f : String} {u : List Char} (hu : f.data = u ++ ".json".data) :
    (takingName f).data = u ++ ".json.taking".data := by
  have h : strEndsWith f ".json" = true :=
    strEndsWith_iff.mpr ⟨u, hu.symm⟩
  have hlen : f.data.length - ".json".data.length = u.length := by
    simp [hu]
  simp only [takingName, h, if_pos, hlen]
  simp [hu, List.take_left']

theorem takingName_endsTaking {f : String} (h : strEndsWith f ".json" = true) :
    strEndsWith (takingName f) ".taking" = true := by
  rcases exists_stem_of_endsJson h with ⟨u, hu⟩
  refine strEndsWith_iff.mpr ?_
  rw [takingName_data hu]
  refine ⟨u ++ ".json".data, ?_⟩
  simp [show (".json.taking").data = ".json".data ++ ".taking".data from by decide]

theorem takingName_ne_self {f : String} (h : strEndsWith f ".json" = true) :
    takingName f ≠ f := by
  rcases exists_stem_of_endsJson h with ⟨u, hu⟩
  intro he
  have : (takingName f).data = f.data := by rw [he]
  rw [takingName_data hu, hu] at this
  have := congrArg List.length this
  simp at this

/-- A `.json` name is never the Leased name produced by a claim rename. -/
theorem endsJson_ne_takingName {f g : String} (hf : strEndsWith f ".json" = true)
    (hg : strEndsWith g ".json" = true) : f ≠ takingName g := by
  intro he
  have ht : strEndsWith f ".taking" = true := by
    rw [he]; exact takingName_endsTaking hg
  exact not_endsJson_endsTaking hf ht

theorem backName_data {n : String} {u : List Char} (hu : n.data = u ++ ".json.taking".data) :
    (backName n).data = u ++ ".json".data := by
  have h : strEndsWith n ".json.taking" = true :=
    strEndsWith_iff.mpr ⟨u, hu.symm⟩
  have hlen : n.data.length - ".json.taking".data.length = u.length := by
    simp [hu]
  simp only [backName, h, if_pos, hlen]
  simp [hu, List.take_left']

theorem exists_stem_of_endsJsonTaking {n : String} (h : strEndsWith n ".json.taking" = true) :
    ∃ u, n.data = u ++ ".json.taking".data := by
  rcases strEndsWith_iff.mp h with ⟨u, hu⟩
  exact ⟨u, hu.symm⟩

theorem backName_endsJson {n : String} (h : strEndsWith n ".json.taking" = true) :
    strEndsWith (backName n) ".json" = true := by
  rcases exists_stem_of_endsJsonTaking h with ⟨u, hu⟩
  exact strEndsWith_iff.mpr ⟨u, (backName_data hu).symm⟩

/-- The Available form of a lock is itself never a lock name. -/
theorem backName_not_lock {n : String} (h : strEndsWith n ".json.taking" = true) :
    strEndsWith (backName n) ".json.taking" = true → False := by
  intro hb
  exact not_endsJson_endsTaking (backName_endsJson h) (endsTaking_of_endsJsonTaking hb)

/-- `backName` is injective on lock names. -/
theorem backName_inj {n m : String} (hn : strEndsWith n ".json.taking" = true)
    (hm : strEndsWith m ".json.taking" = true) (h : backName n = backName m) : n = m := by
  rcases exists_stem_of_endsJsonTaking hn with ⟨u, hu⟩
  rcases exists_stem_of_endsJsonTaking hm with ⟨v, hv⟩
  have hd : (backName n).data = (backName m).data := by rw [h]
  rw [backName_data hu, backName_data hv] at hd
  have huv : u = v := by
    have := (List.append_left_inj ".json".data).mp hd
    exact this
  apply String.ext
  rw [hu, hv, huv]

/-! ## Facts about store primitives -/

theorem names_applyRename (s : Store) (src dst : String) :
    names (applyRename s src dst) = (names s).map (fun n => if n = src then dst else n) := by
  simp only [names, applyRename, List.map_map]
  refine List.map_congr_left (fun e _ => ?_)
  by_cases h : e.name = src <;> simp [h]

theorem mem_names_applyRename {s : Store} {src dst f : String}
    (hf : f ∈ names (applyRename s src dst)) :
    (f ∈ names s ∧ f ≠ src) ∨ (f = dst ∧ src ∈ names s) := by
  rw [names_applyRename] at hf
  rcases List.mem_map.mp hf with ⟨n, hn, he⟩
  by_cases h : n = src
  · subst h
    simp at he
    right
    exact ⟨he.symm, hn⟩
  · left
    simp [h] at he
    subst he
    exact ⟨hn, h⟩

/-! ## Mutual exclusion of the claim rename -/

theorem contains_names_iff {s : Store} {n : String} :
    (names s).contains n = true ↔ n ∈ names s := by
  simp [List.contains]

theorem atomicRename_some {s s' : Store} {src dst : String}
    (h : atomicRename s src dst = some s') :
    src ∈ names s ∧ s' = applyRename s src dst := by
  by_cases hc : (names s).contains src = true
  · rw [atomicRename, if_pos hc] at h
    exact ⟨contains_names_iff.mp hc, (Option.some.inj h).symm⟩
  · rw [atomicRename, if_neg hc] at h
    exact absurd h (by simp)

theorem successCount_nil (f : String) : successCount f [] = 0 := rfl

theorem successCount_cons (f : String) (e : ClaimEvent) (evs : List ClaimEvent) :
    successCount f (e :: evs) =
      (if e.target == f && e.success then 1 else 0) + successCount f evs := by
  by_cases h : (e.target == f && e.success) = true <;>
    simp [successCount, List.filter_cons, h, Nat.add_comm]

/-- Once the Available record `f` is gone from the store, no later claim
attempt on `f` can succeed: renames only produce `.taking` names, never a
fresh `.json` name. -/
theorem successCount_eq_zero_of_not_mem {f : String} (hf : strEndsWith f ".json" = true)
    {s t : Store} {evs : List ClaimEvent} (hrun : ClaimRun s evs t) :
    f ∉ names s → successCount f evs = 0 := by
  induction hrun with
  | nil => intro _; rfl
  | stepSuccess c g hg hrun ih =>
      intro hmem
      rcases atomicRename_some hg with ⟨hgmem, hs'⟩
      have hne : g ≠ f := by
        intro h
        exact hmem (h ▸ hgmem)
      rw [successCount_cons]
      have hb : (g == f) = false := by simp [hne]
      simp only [hb, Bool.false_and, if_neg Bool.false_ne_true, Nat.zero_add]
      apply ih
      rw [hs']
      intro hf'
      rcases mem_names_applyRename hf' with ⟨h1, _⟩ | ⟨h2, _⟩
      · exact hmem h1
      · by_cases hgj : strEndsWith g ".json" = true
        · exact endsJson_ne_takingName hf hgj h2
        · rw [takingName, if_neg hgj] at h2
          exact hmem (h2 ▸ hgmem)
  | stepFail c g hg hrun ih =>
      intro hmem
      rw [successCount_cons]
      simp only [Bool.and_false, if_neg Bool.false_ne_true, Nat.zero_add]
      exact ih hmem

theorem successCount_le_one {f : String} (hf : strEndsWith f ".json" = true)
    {s t : Store} {evs : List ClaimEvent} (hrun : ClaimRun s evs t) :
    successCount f evs ≤ 1 := by
  induction hrun with
  | nil => simp [successCount_nil]
  | stepSuccess c g hg hrun ih =>
      rcases atomicRename_some hg with ⟨hgmem, hs'⟩
      by_cases hgf : g = f
      · rw [successCount_cons]
        have hz : successCount f _ = 0 := successCount_eq_zero_of_not_mem hf hrun (by
          rw [hs', hgf]
          intro hf'
          rcases mem_names_applyRename hf' with ⟨_, h2⟩ | ⟨h2, _⟩
          · exact h2 rfl
          · exact takingName_ne_self hf h2.symm)
        rw [hz]
        simp [hgf]
      · rw [successCount_cons]
        have hb : (g == f) = false := by simp [hgf]
        simp only [hb, Bool.false_and, if_neg Bool.false_ne_true, Nat.zero_add]
        exact ih
  | stepFail c g hg hrun ih =>
      rw [successCount_cons]
      simp only [Bool.and_false, if_neg Bool.false_ne_true, Nat.zero_add]
      exact ih

/-! ## Concrete fixtures used by witnesses -/

def sampleTask : Task := ⟨"1", "acc", "42", "hi", none, "2026-01-01"⟩

def sampleCfg : Config := ⟨"Здравствуйте!", true, "", "dev-task-key", 180000, 60000⟩

/-! ## The claims -/

/-- C1: Mutual exclusion of leases.  In any interleaved run of atomic
claim renames by any number of concurrent claimers over the shared store,
each Available record `f` is successfully transitioned to its Leased name
(and hence returned with a lock token) by at most one claimer; every other
contender's rename step observes an explicit failure (`ClaimRun` only
admits a success step when the Available record is still present). -/
theorem claim_C1_mutual_exclusion {s t : Store} {evs : List ClaimEvent} {f : String}
    (hrun : ClaimRun s evs t) (hf : strEndsWith f ".json" = true) :
    successCount f evs ≤ 1 :=
  successCount_le_one hf hrun

theorem claim_C1_mutual_exclusion_witness :
    strEndsWith "acc__1.json" ".json" = true ∧
    successCount "acc__1.json"
      [⟨0, "acc__1.json", true⟩, ⟨1, "acc__1.json", false⟩] ≤ 1 := by
  refine ⟨by decide, ?_⟩
  have h2 : ClaimRun [⟨"acc__1.json.taking", sampleTask, 0⟩]
      [⟨1, "acc__1.json", false⟩] [⟨"acc__1.json.taking", sampleTask, 0⟩] :=
    ClaimRun.stepFail 1 "acc__1.json" (by decide)
      (ClaimRun.nil [⟨"acc__1.json.taking", sampleTask, 0⟩])
  have hrun : ClaimRun [⟨"acc__1.json", sampleTask, 0⟩]
      [⟨0, "acc__1.json", true⟩, ⟨1, "acc__1.json", false⟩]
      [⟨"acc__1.json.taking", sampleTask, 0⟩] :=
    ClaimRun.stepSuccess 0 "acc__1.json" (by decide) h2
  exact claim_C1_mutual_exclusion hrun (by decide)

/-- C5: createTask fails with InvalidArgument exactly on an empty chat_id;
otherwise it persists a Task whose account is the input sanitized to
`[A-Za-z0-9_-]` (with `hr-main` substituted for an empty input), whose
reply_text falls back to the configured default when absent, under the
record name `{account}__{id}.json` for the freshly generated id. -/
theorem createTask_C5_spec (cfg : Config) (id nowIsoStr account chat_id : String)
    (reply_text message_id : Option String) (nowMs : Int) (s : Store) :
    (chat_id = "" →
      createTask cfg id nowIsoStr account chat_id reply_text message_id nowMs s =
        .error .chatIdRequired) ∧
    (chat_id ≠ "" → ∃ task : Task,
      createTask cfg id nowIsoStr account chat_id reply_text message_id nowMs s =
        .ok (task, s ++ [⟨task.account ++ "__" ++ id ++ ".json", task, nowMs⟩]) ∧
      task.id = id ∧ task.chat_id = chat_id ∧
      task.account = sanitizeAccount account ∧
      (∀ c ∈ task.account.data, isAccountChar c = true) ∧
      (account = "" → task.account = "hr-main") ∧
      (reply_text = none → task.reply_text = cfg.defaultReply)) := by
  constructor
  · intro h
    simp [createTask, h]
  · intro h
    refine ⟨{ id := id, account := sanitizeAccount account, chat_id := chat_id,
              reply_text := match reply_text with
                | some r => if r = "" then cfg.defaultReply else r
                | none => cfg.defaultReply,
              message_id := match message_id with
                | some m => if m = "" then none else some m
                | none => none,
              created_at := nowIsoStr }, ?_, rfl, rfl, rfl, ?_, ?_, ?_⟩
    · simp [createTask, h]
    · intro c hc
      rcases List.mem_map.mp (by simpa [sanitizeAccount] using hc) with ⟨c0, _, hce⟩
      by_cases h0 : isAccountChar c0 = true
      · rw [← hce, sanitizeChar, if_pos h0]
        exact h0
      · rw [← hce, sanitizeChar, if_neg h0]
        decide
    · intro h0
      simp [sanitizeAccount, h0]
      rfl
    · intro h0
      simp [h0]

theorem createTask_C5_spec_witness :
    ("" : String) = "" ∧ ("42" : String) ≠ "" ∧
    createTask sampleCfg "id1" "now" "a b" "" none none 5 [] = .error .chatIdRequired ∧
    (∃ task : Task,
      createTask sampleCfg "id1" "now" "a b" "42" none none 5 [] =
        .ok (task, [] ++ [⟨task.account ++ "__" ++ "id1" ++ ".json", task, 5⟩]) ∧
      task.id = "id1" ∧ task.chat_id = "42" ∧
      task.account = sanitizeAccount "a b" ∧
      (∀ c ∈ task.account.data, isAccountChar c = true) ∧
      (("a b" : String) = "" → task.account = "hr-main") ∧
      ((none : Option String) = none → task.reply_text = sampleCfg.defaultReply)) :=
  ⟨rfl, by decide,
   (createTask_C5_spec sampleCfg "id1" "now" "a b" "" none none 5 []).1 rfl,
   (createTask_C5_spec sampleCfg "id1" "now" "a b" "42" none none 5 []).2 (by decide)⟩

/-- C6: done unconditionally deletes the Leased record and is idempotent:
it always reports success, deleting an absent record is a no-op rather than
an error, and a second call on the same lock token changes nothing. -/
theorem doneTask_C6_idempotent (s : Store) (lockId : String) :
    (doneTask s lockId).1 = true ∧
    lockId ∉ names (doneTask s lockId).2 ∧
    (lockId ∉ names s → doneTask s lockId = (true, s)) ∧
    doneTask (doneTask s lockId).2 lockId = (true, (doneTask s lockId).2) := by
  refine ⟨rfl, ?_, ?_, ?_⟩
  · simp [doneTask, names]
  · intro h
    have : ∀ e ∈ s, ¬(e.name = lockId) := by
      intro e he hne
      exact h (hne ▸ List.mem_map_of_mem (·.name) he)
    simp only [doneTask, Prod.mk.injEq, true_and]
    rw [List.filter_eq_self]
    intro e he
    simpa using this e he
  · simp [doneTask, List.filter_filter]

theorem doneTask_C6_idempotent_witness :
    "b__2.json.taking" ∉ names [⟨"acc__1.json.taking", sampleTask, 0⟩] ∧
    doneTask [⟨"acc__1.json.taking", sampleTask, 0⟩] "b__2.json.taking" =
      (true, [⟨"acc__1.json.taking", sampleTask, 0⟩]) := by
  refine ⟨by decide, ?_⟩
  exact (doneTask_C6_idempotent [⟨"acc__1.json.taking", sampleTask, 0⟩] "b__2.json.taking").2.2.1
    (by decide)

theorem strLength_pos_iff {s : String} : 0 < s.length ↔ s ≠ "" := by
  rw [String.length]
  constructor
  · intro h he
    rw [he] at h
    simp at h
  · intro h
    apply Nat.pos_of_ne_zero
    intro hz
    exact h (String.ext (List.eq_nil_of_length_eq_zero hz))

/-- C7: heartbeat on a well-formed lock token fails with NotFound exactly
when the Leased record is missing; when present it sets the record's
modification time to now (extending the lease) and leaves its content
untouched. -/
theorem heartbeat_C7_spec (cfg : Config) (keyRaw lockRaw : String) (now : Int) (s : Store)
    (hkey : checkKey cfg keyRaw = true) (hshape : lockShapeOk (strTrim lockRaw) = true) :
    (strTrim lockRaw ∉ names s → heartbeatEp cfg keyRaw lockRaw now s = (404, s)) ∧
    (strTrim lockRaw ∈ names s →
      heartbeatEp cfg keyRaw lockRaw now s =
        (200, s.map (fun e => if e.name = strTrim lockRaw then { e with mtime := now } else e))) := by
  constructor
  · intro hm
    simp [heartbeatEp, hkey, hshape, hm]
  · intro hm
    simp [heartbeatEp, hkey, hshape, hm]

theorem heartbeat_C7_spec_witness :
    checkKey sampleCfg "dev-task-key" = true ∧
    lockShapeOk (strTrim "acc__1.json.taking") = true ∧
    heartbeatEp sampleCfg "dev-task-key" "acc__1.json.taking" 99 [] = (404, []) ∧
    heartbeatEp sampleCfg "dev-task-key" "acc__1.json.taking" 99
        [⟨"acc__1.json.taking", sampleTask, 0⟩] =
      (200, [⟨"acc__1.json.taking", sampleTask, 99⟩]) := by
  refine ⟨by decide, by decide, ?_, ?_⟩
  · exact (heartbeat_C7_spec sampleCfg "dev-task-key" "acc__1.json.taking" 99 []
      (by decide) (by decide)).1 (by decide)
  · have h := (heartbeat_C7_spec sampleCfg "dev-task-key" "acc__1.json.taking" 99
      [⟨"acc__1.json.taking", sampleTask, 0⟩] (by decide) (by decide)).2 (by decide)
    rw [h]
    decide

/-- C9: with a non-empty webhook secret configured, a webhook request is
rejected with Forbidden iff its supplied secret differs from the configured
one and its signature header is empty; any non-empty signature passes the
check regardless of its value and of the supplied secret. -/
theorem webhook_C9_secret (secret hSecret hSignature : String) (hs : secret ≠ "") :
    (webhookRejected secret hSecret hSignature = true ↔
      (hSecret ≠ secret ∧ hSignature = "")) ∧
    (hSignature ≠ "" → webhookRejected secret hSecret hSignature = false) := by
  have hlen : (decide (0 < hSignature.length)) = (decide (hSignature ≠ "")) := by
    by_cases h : hSignature = "" <;> simp [h, strLength_pos_iff]
  constructor
  · by_cases h1 : hSecret = secret
    · have hne : hSecret ≠ "" := h1 ▸ hs
      simp [webhookRejected, webhookSecretPass, h1, hne, hs]
    · by_cases h2 : hSignature = "" <;>
        simp [webhookRejected, webhookSecretPass, h1, h2, hs, hlen]
  · intro h2
    simp [webhookRejected, webhookSecretPass, h2, hs, hlen]

theorem webhook_C9_secret_witness :
    ("s3cr3t" : String) ≠ "" ∧
    webhookRejected "s3cr3t" "wrong" "" = true ∧
    webhookRejected "s3cr3t" "wrong" "any-signature" = false :=
  ⟨by decide,
   (webhook_C9_secret "s3cr3t" "wrong" "" (by decide)).1.mpr ⟨by decide, rfl⟩,
   (webhook_C9_secret "s3cr3t" "wrong" "any-signature" (by decide)).2 (by decide)⟩

/-- C10 counterexample: the token `"acc__1.json.taking "` (trailing blank)
is neither empty nor `.json.taking`-terminated, yet done answers 200, not
400, and deletes the record: the endpoints validate the trimmed token, not
the supplied one. -/
theorem lock_C10_counterexample :
    ¬(("acc__1.json.taking " : String) = "") ∧
    strEndsWith "acc__1.json.taking " ".json.taking" = false ∧
    (doneEp sampleCfg "dev-task-key" "acc__1.json.taking "
      [⟨"acc__1.json.taking", sampleTask, 0⟩]).1 = 200 ∧
    (doneEp sampleCfg "dev-task-key" "acc__1.json.taking "
      [⟨"acc__1.json.taking", sampleTask, 0⟩]).2 = [] := by
  decide

/-- C10 amended: every lock-token-taking endpoint (done, requeue,
heartbeat, doneSafe) validates the whitespace-trimmed token before touching
storage: whenever the trimmed token is empty or does not end in
`.json.taking`, the endpoint answers 400 InvalidArgument and the task store
is unchanged. -/
theorem lock_C10_amended (cfg : Config) (keyRaw lockRaw : String) (now : Int)
    (tails : List LogTail) (s : Store) (hkey : checkKey cfg keyRaw = true)
    (hbad : strTrim lockRaw = "" ∨ strEndsWith (strTrim lockRaw) ".json.taking" = false) :
    doneEp cfg keyRaw lockRaw s = (400, s) ∧
    requeueEp cfg keyRaw lockRaw s = (400, s) ∧
    heartbeatEp cfg keyRaw lockRaw now s = (400, s) ∧
    doneSafeEp cfg keyRaw lockRaw tails s = ⟨400, none, s⟩ := by
  have hsh : lockShapeOk (strTrim lockRaw) = false := by
    rcases hbad with h | h <;> simp [lockShapeOk, h]
  simp [doneEp, requeueEp, heartbeatEp, doneSafeEp, hkey, hsh]

theorem lock_C10_amended_witness :
    checkKey sampleCfg "dev-task-key" = true ∧
    (strTrim "   " = "" ∨ strEndsWith (strTrim "   ") ".json.taking" = false) ∧
    doneEp sampleCfg "dev-task-key" "   " [⟨"acc__1.json.taking", sampleTask, 0⟩] =
      (400, [⟨"acc__1.json.taking", sampleTask, 0⟩]) ∧
    requeueEp sampleCfg "dev-task-key" "   " [⟨"acc__1.json.taking", sampleTask, 0⟩] =
      (400, [⟨"acc__1.json.taking", sampleTask, 0⟩]) ∧
    heartbeatEp sampleCfg "dev-task-key" "   " 7 [⟨"acc__1.json.taking", sampleTask, 0⟩] =
      (400, [⟨"acc__1.json.taking", sampleTask, 0⟩]) ∧
    doneSafeEp sampleCfg "dev-task-key" "   " [] [⟨"acc__1.json.taking", sampleTask, 0⟩] =
      ⟨400, none, [⟨"acc__1.json.taking", sampleTask, 0⟩]⟩ := by
  refine ⟨by decide, Or.inl (by decide), ?_⟩
  have h := lock_C10_amended sampleCfg "dev-task-key" "   " 7 []
    [⟨"acc__1.json.taking", sampleTask, 0⟩] (by decide) (Or.inl (by decide))
  exact ⟨h.1, h.2.1, h.2.2.1, h.2.2.2⟩

/-- C4: doneSafe on a well-formed lock token answers 428 PreconditionRequired
when no chat_id can be recovered from the Leased record; when the log-scan
confirmation fails it answers 428 reporting the scanned log sources and
leaves the store (hence the Leased record) untouched; only when confirmation
succeeds does it delete the Leased record (as done would) and answer 204. -/
theorem doneSafe_C4_spec (cfg : Config) (keyRaw lockRaw : String) (tails : List LogTail)
    (s : Store) (hkey : checkKey cfg keyRaw = true)
    (hshape : lockShapeOk (strTrim lockRaw) = true) :
    ((match readTaking s (strTrim lockRaw) with
      | some t => strTrim t.chat_id
      | none => "") = "" →
      doneSafeEp cfg keyRaw lockRaw tails s = ⟨428, none, s⟩) ∧
    (∀ chat, (match readTaking s (strTrim lockRaw) with
      | some t => strTrim t.chat_id
      | none => "") = chat → chat ≠ "" →
      (confirmedInTails chat tails = false →
        doneSafeEp cfg keyRaw lockRaw tails s = ⟨428, some (tails.map (·.name)), s⟩) ∧
      (confirmedInTails chat tails = true →
        doneSafeEp cfg keyRaw lockRaw tails s =
          ⟨204, none, (doneTask s (strTrim lockRaw)).2⟩)) := by
  constructor
  · intro h
    simp [doneSafeEp, hkey, hshape, h]
  · intro chat hchat hne
    constructor <;> intro hcf <;>
      simp [doneSafeEp, hkey, hshape, hchat, hne, hcf]

theorem doneSafe_C4_spec_witness :
    checkKey sampleCfg "dev-task-key" = true ∧
    lockShapeOk (strTrim "acc__1.json.taking") = true ∧
    doneSafeEp sampleCfg "dev-task-key" "acc__1.json.taking" [] [] = ⟨428, none, []⟩ ∧
    doneSafeEp sampleCfg "dev-task-key" "acc__1.json.taking"
        [⟨"logs.20260101.log", "no match here"⟩]
        [⟨"acc__1.json.taking", sampleTask, 0⟩] =
      ⟨428, some ["logs.20260101.log"], [⟨"acc__1.json.taking", sampleTask, 0⟩]⟩ ∧
    doneSafeEp sampleCfg "dev-task-key" "acc__1.json.taking"
        [⟨"logs.20260101.log", "x \"chat_id\": \"42\" y \"type\": \"text\" z \"author_id\": 7 w"⟩]
        [⟨"acc__1.json.taking", sampleTask, 0⟩] =
      ⟨204, none,
        (doneTask [⟨"acc__1.json.taking", sampleTask, 0⟩] (strTrim "acc__1.json.taking")).2⟩ := by
  refine ⟨by decide, by decide, ?_, ?_, ?_⟩
  · exact (doneSafe_C4_spec sampleCfg "dev-task-key" "acc__1.json.taking" [] []
      (by decide) (by decide)).1 (by decide)
  · exact ((doneSafe_C4_spec sampleCfg "dev-task-key" "acc__1.json.taking"
      [⟨"logs.20260101.log", "no match here"⟩] [⟨"acc__1.json.taking", sampleTask, 0⟩]
      (by decide) (by decide)).2 "42" (by decide) (by decide)).1 (by decide)
  · exact ((doneSafe_C4_spec sampleCfg "dev-task-key" "acc__1.json.taking"
      [⟨"logs.20260101.log", "x \"chat_id\": \"42\" y \"type\": \"text\" z \"author_id\": 7 w"⟩]
      [⟨"acc__1.json.taking", sampleTask, 0⟩]
      (by decide) (by decide)).2 "42" (by decide) (by decide)).2 (by decide)

/-- C8: ingestion triggers with dedup enabled.  A system event carrying
`flow_id:"job"` and a non-empty chat_id creates a Task on every ingestion —
twice in a row yields two Tasks, bypassing the per-(account, chat_id)
suppression — whereas an event whose free text matches the candidate
pattern (and which is not a job-flow event) creates a Task only on its
first ingestion for a given (account, chat_id): the second is suppressed
and leaves the store unchanged. -/
theorem webhook_C8_dedup (cfg : Config) (account : String) (v vT : WebhookVal)
    (seen seenT : List String) (s sT : Store) (id1 id2 n1 n2 : String) (m1 m2 : Int)
    (hdedup : cfg.onlyFirstSystem = true)
    (hjob : isJobFlow v = true) (hchat : v.chat_id ≠ "")
    (htxt : looksLikeCandidateText vT.text = true) (hTjob : isJobFlow vT = false)
    (hTchat : vT.chat_id ≠ "") (hTnew : (account ++ ":" ++ vT.chat_id) ∉ seenT) :
    ((webhookBody cfg account v seen id1 n1 m1 s).2.2 = true ∧
      (webhookBody cfg account v (webhookBody cfg account v seen id1 n1 m1 s).1 id2 n2 m2
        (webhookBody cfg account v seen id1 n1 m1 s).2.1).2.2 = true ∧
      (webhookBody cfg account v (webhookBody cfg account v seen id1 n1 m1 s).1 id2 n2 m2
        (webhookBody cfg account v seen id1 n1 m1 s).2.1).2.1.length = s.length + 2) ∧
    ((webhookBody cfg account vT seenT id1 n1 m1 sT).2.2 = true ∧
      (webhookBody cfg account vT (webhookBody cfg account vT seenT id1 n1 m1 sT).1 id2 n2 m2
        (webhookBody cfg account vT seenT id1 n1 m1 sT).2.1).2.2 = false ∧
      (webhookBody cfg account vT (webhookBody cfg account vT seenT id1 n1 m1 sT).1 id2 n2 m2
        (webhookBody cfg account vT seenT id1 n1 m1 sT).2.1).2.1 =
        (webhookBody cfg account vT seenT id1 n1 m1 sT).2.1 ∧
      (webhookBody cfg account vT seenT id1 n1 m1 sT).2.1.length = sT.length + 1) := by
  constructor
  · have h1 : webhookBody cfg account v seen id1 n1 m1 s =
        (seen, s ++ [⟨sanitizeAccount account ++ "__" ++ id1 ++ ".json",
          { id := id1, account := sanitizeAccount account, chat_id := v.chat_id,
            reply_text := cfg.defaultReply,
            message_id := match v.msg_id with
              | some m => if m = "" then none else some m
              | none => none,
            created_at := n1 }, m1⟩], true) := by
      simp [webhookBody, hjob, hchat, createTask]
    rw [h1]
    have h2 : webhookBody cfg account v seen id2 n2 m2
        (s ++ [⟨sanitizeAccount account ++ "__" ++ id1 ++ ".json",
          { id := id1, account := sanitizeAccount account, chat_id := v.chat_id,
            reply_text := cfg.defaultReply,
            message_id := match v.msg_id with
              | some m => if m = "" then none else some m
              | none => none,
            created_at := n1 }, m1⟩]) =
        (seen, (s ++ [⟨sanitizeAccount account ++ "__" ++ id1 ++ ".json",
          { id := id1, account := sanitizeAccount account, chat_id := v.chat_id,
            reply_text := cfg.defaultReply,
            message_id := match v.msg_id with
              | some m => if m = "" then none else some m
              | none => none,
            created_at := n1 }, m1⟩]) ++ [⟨sanitizeAccount account ++ "__" ++ id2 ++ ".json",
          { id := id2, account := sanitizeAccount account, chat_id := v.chat_id,
            reply_text := cfg.defaultReply,
            message_id := match v.msg_id with
              | some m => if m = "" then none else some m
              | none => none,
            created_at := n2 }, m2⟩], true) := by
      simp [webhookBody, hjob, hchat, createTask]
    rw [h2]
    simp
  · have hcont : seenT.contains (account ++ ":" ++ vT.chat_id) = false := by
      rw [← Bool.not_eq_true]
      intro h
      exact hTnew (List.elem_iff.mp h)
    have h1 : webhookBody cfg account vT seenT id1 n1 m1 sT =
        ((account ++ ":" ++ vT.chat_id) :: seenT,
         sT ++ [⟨sanitizeAccount account ++ "__" ++ id1 ++ ".json",
          { id := id1, account := sanitizeAccount account, chat_id := vT.chat_id,
            reply_text := cfg.defaultReply,
            message_id := match vT.msg_id with
              | some m => if m = "" then none else some m
              | none => none,
            created_at := n1 }, m1⟩], true) := by
      simp [webhookBody, hTjob, htxt, hTchat, hdedup, hcont, hTnew, createTask]
    rw [h1]
    have h2 : webhookBody cfg account vT ((account ++ ":" ++ vT.chat_id) :: seenT) id2 n2 m2
        (sT ++ [⟨sanitizeAccount account ++ "__" ++ id1 ++ ".json",
          { id := id1, account := sanitizeAccount account, chat_id := vT.chat_id,
            reply_text := cfg.defaultReply,
            message_id := match vT.msg_id with
              | some m => if m = "" then none else some m
              | none => none,
            created_at := n1 }, m1⟩]) =
        ((account ++ ":" ++ vT.chat_id) :: seenT,
         sT ++ [⟨sanitizeAccount account ++ "__" ++ id1 ++ ".json",
          { id := id1, account := sanitizeAccount account, chat_id := vT.chat_id,
            reply_text := cfg.defaultReply,
            message_id := match vT.msg_id with
              | some m => if m = "" then none else some m
              | none => none,
            created_at := n1 }, m1⟩], false) := by
      simp [webhookBody, hTjob, htxt, hTchat, hdedup]
    rw [h2]
    simp

theorem webhook_C8_dedup_witness :
    sampleCfg.onlyFirstSystem = true ∧
    isJobFlow ⟨"system", "", "job", "42", none⟩ = true ∧
    looksLikeCandidateText "Кандидат откликнулся на вакансию" = true ∧
    isJobFlow ⟨"user", "Кандидат откликнулся на вакансию", "", "42", none⟩ = false ∧
    ("hr:42" : String) ∉ ([] : List String) ∧
    (webhookBody sampleCfg "hr" ⟨"system", "", "job", "42", none⟩ [] "i1" "t1" 1 []).2.2 = true ∧
    (webhookBody sampleCfg "hr" ⟨"system", "", "job", "42", none⟩
      (webhookBody sampleCfg "hr" ⟨"system", "", "job", "42", none⟩ [] "i1" "t1" 1 []).1
      "i2" "t2" 2
      (webhookBody sampleCfg "hr" ⟨"system", "", "job", "42", none⟩ [] "i1" "t1" 1 []).2.1).2.1.length
      = 2 ∧
    (webhookBody sampleCfg "hr" ⟨"user", "Кандидат откликнулся на вакансию", "", "42", none⟩
      [] "i1" "t1" 1 []).2.2 = true ∧
    (webhookBody sampleCfg "hr" ⟨"user", "Кандидат откликнулся на вакансию", "", "42", none⟩
      (webhookBody sampleCfg "hr" ⟨"user", "Кандидат откликнулся на вакансию", "", "42", none⟩
        [] "i1" "t1" 1 []).1
      "i2" "t2" 2
      (webhookBody sampleCfg "hr" ⟨"user", "Кандидат откликнулся на вакансию", "", "42", none⟩
        [] "i1" "t1" 1 []).2.1).2.2 = false := by
  have h := webhook_C8_dedup sampleCfg "hr" ⟨"system", "", "job", "42", none⟩
    ⟨"user", "Кандидат откликнулся на вакансию", "", "42", none⟩ [] [] [] [] "i1" "i2" "t1" "t2" 1 2
    (by decide) (by decide) (by decide) (by decide) (by decide) (by decide) (by decide)
  exact ⟨by decide, by decide, by decide, by decide, by decide,
    h.1.1, h.1.2.2, h.2.1, h.2.2.1⟩

theorem claimLoop_eq_find (renameOk : String → Bool) (s : Store) (cand : List FsEntry) :
    claimLoop renameOk s cand = (cand.find? (fun e => renameOk e.name)).map
      (fun e => ({ task := e.task, lockId := takingName e.name },
        applyRename s e.name (takingName e.name))) := by
  induction cand with
  | nil => rfl
  | cons e rest ih =>
      by_cases h : renameOk e.name = true <;>
        simp [claimLoop, List.find?_cons, h, ih]

/-- C2: claim lists the Available records, sorts them newest-first by
modification time, filters them to the `{account}__` prefix when an account
is given, and attempts the atomic rename on at most the first `k` of them
in that order, with `k ∈ {3, 7}` (server.js and its variant), both within
the claimed 3–7 range; it skips candidates whose rename fails and returns
the first winner's Task with the Leased name as lock token; if no candidate
is won it sweeps the stale Leased records and returns empty. -/
theorem claim_C2_spec (cfg : Config) (k : Nat) (renameOk : String → Bool) (account : String)
    (now : Int) (s : Store) (hk : k = 3 ∨ k = 7) :
    (3 ≤ k ∧ k ≤ 7) ∧
    List.Sorted mtimeGe (sortByMtimeDesc (s.filter (fun e => strEndsWith e.name ".json"))) ∧
    (sortByMtimeDesc (s.filter (fun e => strEndsWith e.name ".json"))).Perm
      (s.filter (fun e => strEndsWith e.name ".json")) ∧
    (claimCandidates k account s).length ≤ k ∧
    claimCandidates k account s <+:
      (if account = "" then sortByMtimeDesc (s.filter (fun e => strEndsWith e.name ".json"))
       else (sortByMtimeDesc (s.filter (fun e => strEndsWith e.name ".json"))).filter
         (fun e => strStartsWith e.name (account ++ "__"))) ∧
    (∀ e ∈ claimCandidates k account s, strEndsWith e.name ".json" = true) ∧
    (account ≠ "" → ∀ e ∈ claimCandidates k account s,
      strStartsWith e.name (account ++ "__") = true) ∧
    (match (claimCandidates k account s).find? (fun e => renameOk e.name) with
     | some e => claimTask cfg k renameOk account now s =
         (some ⟨e.task, takingName e.name⟩, applyRename s e.name (takingName e.name))
     | none => claimTask cfg k renameOk account now s = (none, sweepLocks cfg account now s)) := by
  have hjson : ∀ e ∈ claimCandidates k account s, strEndsWith e.name ".json" = true := by
    intro e he
    have hsorted : e ∈ sortByMtimeDesc (s.filter (fun x => strEndsWith x.name ".json")) := by
      rcases (by simpa [claimCandidates] using he :
          e ∈ (if account = "" then
              sortByMtimeDesc (s.filter (fun x => strEndsWith x.name ".json"))
            else (sortByMtimeDesc (s.filter (fun x => strEndsWith x.name ".json"))).filter
              (fun x => strStartsWith x.name (account ++ "__"))).take k) with hm
      have hm' := List.mem_of_mem_take hm
      by_cases hacc : account = ""
      · simpa [hacc] using hm'
      · have hm2 : e ∈ (sortByMtimeDesc (s.filter (fun x => strEndsWith x.name ".json"))).filter
            (fun x => strStartsWith x.name (account ++ "__")) := by
          simpa [hacc] using hm'
        exact (List.mem_filter.mp hm2).1
    have := (List.perm_insertionSort mtimeGe
      (s.filter (fun x => strEndsWith x.name ".json"))).mem_iff.mp hsorted
    exact (List.mem_filter.mp this).2
  refine ⟨?_, ?_, ?_, ?_, ?_, hjson, ?_, ?_⟩
  · rcases hk with h | h <;> simp [h]
  · exact List.sorted_insertionSort mtimeGe _
  · exact List.perm_insertionSort mtimeGe _
  · simp [claimCandidates]
  · simpa [claimCandidates] using List.take_prefix k _
  · intro hacc e he
    have hm : e ∈ ((sortByMtimeDesc (s.filter (fun x => strEndsWith x.name ".json"))).filter
        (fun x => strStartsWith x.name (account ++ "__"))).take k := by
      simpa [claimCandidates, hacc] using he
    exact (List.mem_filter.mp (List.mem_of_mem_take hm)).2
  · rcases hfind : (claimCandidates k account s).find? (fun e => renameOk e.name) with _ | e <;>
      simp [claimTask, claimLoop_eq_find, hfind, sweepLocks]

theorem claim_C2_spec_witness :
    ((3 : Nat) = 3 ∨ (3 : Nat) = 7) ∧ (3 ≤ 3 ∧ 3 ≤ 7) ∧
    claimTask sampleCfg 3 (fun _ => true) "" 0
      [⟨"acc__1.json", sampleTask, 10⟩, ⟨"acc__2.json", sampleTask, 20⟩] =
      (some ⟨sampleTask, "acc__2.json.taking"⟩,
        [⟨"acc__1.json", sampleTask, 10⟩, ⟨"acc__2.json.taking", sampleTask, 20⟩]) := by
  have h := claim_C2_spec sampleCfg 3 (fun _ => true) "" 0
    [⟨"acc__1.json", sampleTask, 10⟩, ⟨"acc__2.json", sampleTask, 20⟩] (Or.inl rfl)
  refine ⟨Or.inl rfl, h.1, ?_⟩
  have h8 : claimTask sampleCfg 3 (fun _ => true) "" 0
      [⟨"acc__1.json", sampleTask, 10⟩, ⟨"acc__2.json", sampleTask, 20⟩] =
      (some ⟨sampleTask, takingName "acc__2.json"⟩,
        applyRename [⟨"acc__1.json", sampleTask, 10⟩, ⟨"acc__2.json", sampleTask, 20⟩]
          "acc__2.json" (takingName "acc__2.json")) := h.2.2.2.2.2.2.2
  exact h8.trans (by decide)

/-! ## Characterization of stale-lock reclamation -/

theorem lockName_ne_backName {a : FsEntry} {g : String}
    (ha : strEndsWith a.name ".json.taking" = true)
    (hg : strEndsWith g ".json.taking" = true) : a.name ≠ backName g := by
  intro h
  exact backName_not_lock hg (h ▸ ha)

theorem requeueFold_char (cfg : Config) (account : String) (now : Int) :
    ∀ (L : List FsEntry) (acc : Store),
      (∀ e ∈ L, strEndsWith e.name ".json.taking" = true) →
      (L.map (·.name)).Nodup →
      (names acc).Nodup →
      (∀ e ∈ L, ∀ x ∈ acc, x.name = e.name → x = e) →
      (∀ e ∈ L, backName e.name ∉ names acc) →
      L.foldl (requeueStep cfg account now) acc =
        acc.map (fun x =>
          match L.find? (fun e => e.name == x.name) with
          | some e => if sweepMatch account e.name && staleP cfg now e then
              { x with name := backName x.name } else x
          | none => x) := by
  intro L
  induction L with
  | nil =>
      intro acc _ _ _ _ _
      simp
  | cons e L ih =>
      intro acc hA hN haccN hEq hF
      have hel : strEndsWith e.name ".json.taking" = true := hA e (List.mem_cons_self e L)
      rw [List.map_cons] at hN
      obtain ⟨hNhead, hNL⟩ := List.nodup_cons.mp hN
      have hA' : ∀ a ∈ L, strEndsWith a.name ".json.taking" = true :=
        fun a ha => hA a (List.mem_cons_of_mem e ha)
      rw [List.foldl_cons]
      by_cases hcond : (sweepMatch account e.name && staleP cfg now e) = true
      · rw [show requeueStep cfg account now acc e =
            applyRename acc e.name (backName e.name) from by rw [requeueStep, if_pos hcond]]
        have h3 : (names (applyRename acc e.name (backName e.name))).Nodup := by
          rw [names_applyRename]
          refine haccN.map_on ?_
          intro n1 hn1 n2 hn2 hf
          by_cases h1 : n1 = e.name <;> by_cases h2 : n2 = e.name
          · rw [h1, h2]
          · rw [if_pos h1, if_neg h2] at hf
            exact absurd (hf ▸ hn2) (hF e (List.mem_cons_self e L))
          · rw [if_neg h1, if_pos h2] at hf
            exact absurd (hf ▸ hn1) (hF e (List.mem_cons_self e L))
          · rwa [if_neg h1, if_neg h2] at hf
        have h4 : ∀ a ∈ L, ∀ x ∈ applyRename acc e.name (backName e.name),
            x.name = a.name → x = a := by
          intro a ha x hx hxa
          rcases List.mem_map.mp hx with ⟨y, hy, hyx⟩
          by_cases hye : y.name = e.name
          · rw [if_pos hye] at hyx
            rw [← hyx] at hxa
            exact absurd hxa.symm (lockName_ne_backName (hA' a ha) hel)
          · rw [if_neg hye] at hyx
            rw [← hyx] at hxa ⊢
            exact hEq a (List.mem_cons_of_mem e ha) y hy hxa
        have h5 : ∀ a ∈ L, backName a.name ∉ names (applyRename acc e.name (backName e.name)) := by
          intro a ha hmem
          rw [names_applyRename] at hmem
          rcases List.mem_map.mp hmem with ⟨n, hn, hne⟩
          by_cases hne2 : n = e.name
          · rw [if_pos hne2] at hne
            have : e.name = a.name := backName_inj hel (hA' a ha) hne
            exact hNhead (this ▸ List.mem_map_of_mem (·.name) ha)
          · rw [if_neg hne2] at hne
            exact hF a (List.mem_cons_of_mem e ha) (hne ▸ hn)
        rw [ih (applyRename acc e.name (backName e.name)) hA' hNL h3 h4 h5]
        rw [applyRename, List.map_map]
        refine List.map_congr_left ?_
        intro x hx
        by_cases hxe : x.name = e.name
        · have hfind : L.find? (fun a => a.name == backName e.name) = none := by
            rw [List.find?_eq_none]
            intro a ha hba
            exact lockName_ne_backName (hA' a ha) hel (by simpa using hba)
          have hhead : (e.name == x.name) = true := by simp [hxe]
          simp only [Function.comp, if_pos hxe, List.find?_cons, hhead]
          rw [hfind]
          simp [hcond, hxe]
        · have hhead : (e.name == x.name) = false := by
            simp only [beq_eq_false_iff_ne, ne_eq]
            exact fun h => hxe h.symm
          simp only [Function.comp, if_neg hxe, List.find?_cons, hhead]
      · rw [show requeueStep cfg account now acc e = acc from by rw [requeueStep, if_neg hcond]]
        have h4 : ∀ a ∈ L, ∀ x ∈ acc, x.name = a.name → x = a :=
          fun a ha => hEq a (List.mem_cons_of_mem e ha)
        have h5 : ∀ a ∈ L, backName a.name ∉ names acc :=
          fun a ha => hF a (List.mem_cons_of_mem e ha)
        rw [ih acc hA' hNL haccN h4 h5]
        refine List.map_congr_left ?_
        intro x hx
        by_cases hxe : x.name = e.name
        · have hfind : L.find? (fun a => a.name == x.name) = none := by
            rw [List.find?_eq_none]
            intro a ha hba
            have : a.name = e.name := by
              rw [← hxe]; simpa using hba
            exact hNhead (this ▸ List.mem_map_of_mem (·.name) ha)
          have hhead : (e.name == x.name) = true := by simp [hxe]
          simp only [List.find?_cons, hhead, hfind]
          simp [hcond]
        · have hhead : (e.name == x.name) = false := by
            simp only [beq_eq_false_iff_ne, ne_eq]
            exact fun h => hxe h.symm
          simp only [List.find?_cons, hhead]

theorem find?_name_eq {l : List FsEntry} {x : FsEntry} (hx : x ∈ l)
    (huniq : ∀ a ∈ l, a.name = x.name → a = x) :
    l.find? (fun a => a.name == x.name) = some x := by
  induction l with
  | nil => cases hx
  | cons a l ih =>
      by_cases ha : a.name = x.name
      · have : a = x := huniq a (List.mem_cons_self a l) ha
        simp [List.find?_cons, ha, this]
      · have hhead : (a.name == x.name) = false := by simpa using ha
        rw [List.find?_cons, hhead]
        rcases List.mem_cons.mp hx with he | hm
        · exact absurd (he ▸ rfl) (Ne.symm ha ∘ congrArg FsEntry.name ∘ Eq.symm)
        · exact ih hm (fun b hb => huniq b (List.mem_cons_of_mem a hb))

/-- Under a well-formed store (unique names, and no lock coexisting with its
Available form) one pass of the stale-lock loop reverts exactly the locks
that pass the account filter and whose age exceeds the threshold, leaving
every other record untouched. -/
theorem requeueStale_eq (cfg : Config) (account : String) (now : Int) (s : Store)
    (hnd : (names s).Nodup)
    (hfresh : ∀ x ∈ s, strEndsWith x.name ".json.taking" = true → backName x.name ∉ names s) :
    requeueStale cfg account now s = s.map (fun x =>
      if strEndsWith x.name ".json.taking" && (sweepMatch account x.name && staleP cfg now x) then
        { x with name := backName x.name } else x) := by
  have hinj : ∀ a ∈ s, ∀ b ∈ s, a.name = b.name → a = b :=
    List.inj_on_of_nodup_map hnd
  have hA : ∀ e ∈ s.filter (fun x => strEndsWith x.name ".json.taking"),
      strEndsWith e.name ".json.taking" = true :=
    fun e he => (List.mem_filter.mp he).2
  have hN : ((s.filter (fun x => strEndsWith x.name ".json.taking")).map (·.name)).Nodup :=
    List.Nodup.sublist ((List.filter_sublist s).map (·.name)) hnd
  have hEq : ∀ e ∈ s.filter (fun x => strEndsWith x.name ".json.taking"),
      ∀ x ∈ s, x.name = e.name → x = e :=
    fun e he x hx h => hinj x hx e (List.mem_filter.mp he).1 h
  have hF : ∀ e ∈ s.filter (fun x => strEndsWith x.name ".json.taking"),
      backName e.name ∉ names s :=
    fun e he => hfresh e (List.mem_filter.mp he).1 (List.mem_filter.mp he).2
  rw [requeueStale, requeueFold_char cfg account now _ s hA hN hnd hEq hF]
  refine List.map_congr_left ?_
  intro x hx
  by_cases hlock : strEndsWith x.name ".json.taking" = true
  · have hxf : x ∈ s.filter (fun a => strEndsWith a.name ".json.taking") :=
      List.mem_filter.mpr ⟨hx, hlock⟩
    have hfind : (s.filter (fun a => strEndsWith a.name ".json.taking")).find?
        (fun a => a.name == x.name) = some x :=
      find?_name_eq hxf (fun a ha h => hinj a (List.mem_filter.mp ha).1 x hx h)
    rw [hfind]
    simp [hlock]
  · have hfind : (s.filter (fun a => strEndsWith a.name ".json.taking")).find?
        (fun a => a.name == x.name) = none := by
      rw [List.find?_eq_none]
      intro a ha hba
      have hax : a.name = x.name := by simpa using hba
      exact hlock (hax ▸ (List.mem_filter.mp ha).2)
    rw [hfind]
    simp [hlock]

theorem staleP_iff {cfg : Config} {now : Int} {e : FsEntry} :
    staleP cfg now e = true ↔
      now - e.mtime > cfg.visibilityTimeoutMs + cfg.heartbeatGraceMs := by
  simp [staleP]

/-- C3: in a well-formed store, a Leased record is reverted to Available by
a reaper tick iff its age (time since last modification) strictly exceeds
`visibility_timeout + heartbeat_grace`, and by the claim-time sweep iff it
additionally passes the sweep's account filter; a lease at or under the
threshold is left Leased by both.  The reverted record reappears under its
`.json` (claimable) name. -/
theorem lease_C3_expiry (cfg : Config) (now : Int) (s : Store) (e : FsEntry)
    (hnd : (names s).Nodup)
    (hfresh : ∀ x ∈ s, strEndsWith x.name ".json.taking" = true → backName x.name ∉ names s)
    (he : e ∈ s) (hl : strEndsWith e.name ".json.taking" = true) :
    strEndsWith (backName e.name) ".json" = true ∧
    (∀ account,
      (({ e with name := backName e.name } : FsEntry) ∈ sweepLocks cfg account now s ↔
        (sweepMatch account e.name = true ∧
          now - e.mtime > cfg.visibilityTimeoutMs + cfg.heartbeatGraceMs)) ∧
      (e ∈ sweepLocks cfg account now s ↔
        ¬(sweepMatch account e.name = true ∧
          now - e.mtime > cfg.visibilityTimeoutMs + cfg.heartbeatGraceMs))) ∧
    (({ e with name := backName e.name } : FsEntry) ∈ reaperTick cfg now s ↔
      now - e.mtime > cfg.visibilityTimeoutMs + cfg.heartbeatGraceMs) ∧
    (e ∈ reaperTick cfg now s ↔
      ¬(now - e.mtime > cfg.visibilityTimeoutMs + cfg.heartbeatGraceMs)) := by
  have hinj : ∀ a ∈ s, ∀ b ∈ s, a.name = b.name → a = b :=
    List.inj_on_of_nodup_map hnd
  have hcore : ∀ account,
      (({ e with name := backName e.name } : FsEntry) ∈ sweepLocks cfg account now s ↔
        (sweepMatch account e.name = true ∧
          now - e.mtime > cfg.visibilityTimeoutMs + cfg.heartbeatGraceMs)) ∧
      (e ∈ sweepLocks cfg account now s ↔
        ¬(sweepMatch account e.name = true ∧
          now - e.mtime > cfg.visibilityTimeoutMs + cfg.heartbeatGraceMs)) := by
    intro account
    rw [sweepLocks, requeueStale_eq cfg account now s hnd hfresh]
    constructor
    · constructor
      · intro hmem
        rcases List.mem_map.mp hmem with ⟨x, hx, hFx⟩
        by_cases hc : (strEndsWith x.name ".json.taking" &&
            (sweepMatch account x.name && staleP cfg now x)) = true
        · rw [if_pos hc] at hFx
          rw [Bool.and_eq_true, Bool.and_eq_true] at hc
          have hxl : strEndsWith x.name ".json.taking" = true := hc.1
          have hname : backName x.name = backName e.name := congrArg FsEntry.name hFx
          have hxe : x.name = e.name := backName_inj hxl hl hname
          have hxeq : x = e := hinj x hx e he hxe
          rw [hxeq] at hc
          exact ⟨hc.2.1, staleP_iff.mp hc.2.2⟩
        · rw [if_neg hc] at hFx
          have : backName e.name ∈ names s := by
            rw [← show x.name = backName e.name from congrArg FsEntry.name hFx]
            exact List.mem_map_of_mem (·.name) hx
          exact absurd this (hfresh e he hl)
      · intro hpair
        have hc : (strEndsWith e.name ".json.taking" &&
            (sweepMatch account e.name && staleP cfg now e)) = true := by
          rw [hl, hpair.1, staleP_iff.mpr hpair.2]
          rfl
        refine List.mem_map.mpr ⟨e, he, ?_⟩
        rw [if_pos hc]
    · constructor
      · intro hmem
        rcases List.mem_map.mp hmem with ⟨x, hx, hFx⟩
        by_cases hc : (strEndsWith x.name ".json.taking" &&
            (sweepMatch account x.name && staleP cfg now x)) = true
        · rw [if_pos hc] at hFx
          rw [Bool.and_eq_true, Bool.and_eq_true] at hc
          have hname : backName x.name = e.name := congrArg FsEntry.name hFx
          have hj : strEndsWith e.name ".json" = true := hname ▸ backName_endsJson hc.1
          exact absurd (endsTaking_of_endsJsonTaking hl) (fun ht =>
            not_endsJson_endsTaking hj ht)
        · rw [if_neg hc] at hFx
          have hxeq : x = e := hFx
          rw [hxeq] at hc
          intro hpair
          exact hc (by rw [hl, hpair.1, staleP_iff.mpr hpair.2]; rfl)
      · intro hnc
        have hc : ¬((strEndsWith e.name ".json.taking" &&
            (sweepMatch account e.name && staleP cfg now e)) = true) := by
          intro h
          rw [Bool.and_eq_true, Bool.and_eq_true] at h
          exact hnc ⟨h.2.1, staleP_iff.mp h.2.2⟩
        refine List.mem_map.mpr ⟨e, he, ?_⟩
        rw [if_neg hc]
  have hreap := hcore ""
  have hm0 : sweepMatch "" e.name = true := by simp [sweepMatch]
  refine ⟨backName_endsJson hl, hcore, ?_, ?_⟩
  · rw [reaperTick, ← sweepLocks]
    rw [hreap.1]
    simp [hm0]
  · rw [reaperTick, ← sweepLocks]
    rw [hreap.2]
    simp [hm0]

theorem lease_C3_expiry_witness :
    (names [⟨"acc__1.json.taking", sampleTask, 0⟩]).Nodup ∧
    (⟨"acc__1.json", sampleTask, 0⟩ : FsEntry) ∈
      reaperTick sampleCfg 240001 [⟨"acc__1.json.taking", sampleTask, 0⟩] ∧
    (⟨"acc__1.json.taking", sampleTask, 0⟩ : FsEntry) ∈
      reaperTick sampleCfg 240000 [⟨"acc__1.json.taking", sampleTask, 0⟩] := by
  have h1 := lease_C3_expiry sampleCfg 240001 [⟨"acc__1.json.taking", sampleTask, 0⟩]
    ⟨"acc__1.json.taking", sampleTask, 0⟩ (by decide) (by decide)
    (List.mem_cons_self _ _) (by decide)
  have h2 := lease_C3_expiry sampleCfg 240000 [⟨"acc__1.json.taking", sampleTask, 0⟩]
    ⟨"acc__1.json.taking", sampleTask, 0⟩ (by decide) (by decide)
    (List.mem_cons_self _ _) (by decide)
  refine ⟨by decide, ?_, ?_⟩
  · exact h1.2.2.1.mpr (by decide)
  · exact h2.2.2.2.mpr (by decide)

end AvitoHB
